import Mathlib

/-!
Verification development for the Ocean Hazard Monitoring repository
(`ocean_hazard_monitoring`).  The Python sources under
`src/ocean_hazard_monitoring` are shallowly embedded below:

* `nlp_analytics/nlp_processor.py` — `NLPProcessor.clean_text`,
  `tokenize_text`, `remove_stopwords`, `lemmatize_tokens`,
  `preprocess_text`, `extract_keywords`, `analyze_sentiment`;
* `nlp_analytics/hazard_detector.py` — the `hazard_patterns` and
  `severity_indicators` tables (the classification and prioritization
  methods are absent from the checked-in file, which ends inside the
  location-pattern list, so those are modelled from the spec where noted);
* `monitoring/dashboard.py` — the bounded rolling `hazard_history`.

Strings are modelled as `List Char` / `String`; Python's `None` and
non-string inputs are modelled by `Option String` (`none` = not a string).
Character classes (`\s`, `\d`, `\w`, `string.punctuation`, `str.lower`)
are modelled on their ASCII fragments, which is what every pattern and
test text in the repository uses.
-/

namespace OceanHazard

/-! ### Character classes (ASCII fragments of Python's classes) -/

/-- ASCII fragment of Python's `\s`: space, `\t`, `\n`, `\v`, `\f`, `\r`. -/
def isSpaceChar (c : Char) : Bool :=
  decide (c.toNat = 32 ∨ (9 ≤ c.toNat ∧ c.toNat ≤ 13))

/-- ASCII uppercase letters `A`–`Z`. -/
def isUpperChar (c : Char) : Bool :=
  decide (65 ≤ c.toNat ∧ c.toNat ≤ 90)

/-- ASCII digits `0`–`9` (ASCII fragment of Python's `\d`). -/
def isDigitChar (c : Char) : Bool :=
  decide (48 ≤ c.toNat ∧ c.toNat ≤ 57)

/-- `string.punctuation`: the 32 ASCII punctuation characters, i.e. the
code-point ranges 33–47, 58–64, 91–96 and 123–126. -/
def isPunctChar (c : Char) : Bool :=
  decide ((33 ≤ c.toNat ∧ c.toNat ≤ 47) ∨ (58 ≤ c.toNat ∧ c.toNat ≤ 64) ∨
    (91 ≤ c.toNat ∧ c.toNat ≤ 96) ∨ (123 ≤ c.toNat ∧ c.toNat ≤ 126))

/-- ASCII fragment of Python's `\w`: letters, digits and underscore. -/
def isWordChar (c : Char) : Bool :=
  decide ((48 ≤ c.toNat ∧ c.toNat ≤ 57) ∨ (65 ≤ c.toNat ∧ c.toNat ≤ 90) ∨
    (97 ≤ c.toNat ∧ c.toNat ≤ 122) ∨ c.toNat = 95)

/-- ASCII fragment of Python's `str.lower`: map `A`–`Z` to `a`–`z`. -/
def toLowerChar (c : Char) : Char :=
  if 65 ≤ c.toNat ∧ c.toNat ≤ 90 then Char.ofNat (c.toNat + 32) else c

/-! ### `NLPProcessor.clean_text`

`clean_text` applies, in order: lower-casing; removal of URL matches
(`re.sub(r'http\S+|www\S+|https\S+', '', text)` — the `https\S+`
alternative is subsumed by `http\S+`); removal of mentions
(`re.sub(r'@\w+', '', text)`); hashtag stripping
(`re.sub(r'#([^\s]+)', r'\1', text)`); deletion of
`string.punctuation` characters (`str.translate`); deletion of digits
(`re.sub(r'\d+', '', text)`, i.e. removal of every digit character);
and whitespace collapsing (`re.sub(r'\s+', ' ', text).strip()`).

Each `re.sub` with an empty/group replacement over these specific
patterns is realised as a left-to-right single-pass automaton: a match
starting at the current position consumes the (greedy, maximal) run the
regex would consume, and scanning resumes after the match, exactly as
`re.sub` does with non-overlapping matches. -/

/-- Does `http\S+|www\S+|https\S+` match starting at the head of `s`?
(`http` or `www` followed by at least one non-space character; a string
starting `https…` is already matched by the `http\S+` alternative.) -/
def startsUrl : List Char → Bool
  | 'h' :: 't' :: 't' :: 'p' :: c :: _ => !isSpaceChar c
  | 'w' :: 'w' :: 'w' :: c :: _ => !isSpaceChar c
  | _ => false

/-- `re.sub(r'http\S+|www\S+|https\S+', '', s)`.  In dropping mode
(first argument `true`) the scanner is inside a match and discards
non-space characters; a space ends the match and cannot itself start
one. -/
def removeUrlsGo : Bool → List Char → List Char
  | _, [] => []
  | true, c :: cs =>
    if isSpaceChar c then c :: removeUrlsGo false cs else removeUrlsGo true cs
  | false, c :: cs =>
    if startsUrl (c :: cs) then removeUrlsGo true cs else c :: removeUrlsGo false cs

def removeUrls (s : List Char) : List Char := removeUrlsGo false s

/-- Does `@\w+` match starting at the head of `s`? -/
def startsMention : List Char → Bool
  | c :: d :: _ => c == '@' && isWordChar d
  | _ => false

/-- `re.sub(r'@\w+', '', s)`.  In dropping mode the scanner discards
word characters; the first non-word character ends the match and is
processed afresh (it may itself start a new `@\w+` match). -/
def removeMentionsGo : Bool → List Char → List Char
  | _, [] => []
  | true, c :: cs =>
    if isWordChar c then removeMentionsGo true cs
    else if startsMention (c :: cs) then removeMentionsGo true cs
    else c :: removeMentionsGo false cs
  | false, c :: cs =>
    if startsMention (c :: cs) then removeMentionsGo true cs
    else c :: removeMentionsGo false cs

def removeMentions (s : List Char) : List Char := removeMentionsGo false s

/-- Does `#([^\s]+)` match starting at the head of `s`? -/
def startsTag : List Char → Bool
  | c :: d :: _ => c == '#' && !isSpaceChar d
  | _ => false

/-- `re.sub(r'#([^\s]+)', r'\1', s)`: a `#` followed by a non-space run
is replaced by the run itself.  In emitting mode (first argument `true`)
the scanner is inside the captured group and copies characters verbatim
(the replacement text is not rescanned); a space ends the group. -/
def hashtagGo : Bool → List Char → List Char
  | _, [] => []
  | true, c :: cs => c :: hashtagGo (!isSpaceChar c) cs
  | false, c :: cs =>
    if startsTag (c :: cs) then hashtagGo true cs else c :: hashtagGo false cs

def stripHashtags (s : List Char) : List Char := hashtagGo false s

/-- `text.translate(str.maketrans('', '', string.punctuation))`. -/
def removePunct (s : List Char) : List Char := s.filter (fun c => !isPunctChar c)

/-- `re.sub(r'\d+', '', s)`: with an empty replacement, removing every
maximal digit run is removing every digit character. -/
def removeDigits (s : List Char) : List Char := s.filter (fun c => !isDigitChar c)

/-- `re.sub(r'\s+', ' ', s)`: each maximal whitespace run becomes one
space.  In skipping mode the scanner has already emitted the space for
the current run. -/
def collapseGo : Bool → List Char → List Char
  | _, [] => []
  | true, c :: cs =>
    if isSpaceChar c then collapseGo true cs else c :: collapseGo false cs
  | false, c :: cs =>
    if isSpaceChar c then ' ' :: collapseGo true cs else c :: collapseGo false cs

/-- `str.strip()`: drop leading and trailing whitespace. -/
def stripL (s : List Char) : List Char :=
  ((s.dropWhile isSpaceChar).reverse.dropWhile isSpaceChar).reverse

/-- The body of `NLPProcessor.clean_text`, stage by stage, on `List Char`. -/
def cleanPipeline (s : List Char) : List Char :=
  stripL (collapseGo false (removeDigits (removePunct
    (stripHashtags (removeMentions (removeUrls (s.map toLowerChar)))))))

/-- `NLPProcessor.clean_text`.  `none` models a non-string argument;
`if not text or not isinstance(text, str): return ""` is the guard. -/
def clean_text : Option String → String
  | none => ""
  | some s => if s = "" then "" else ⟨cleanPipeline s.data⟩

example : clean_text (some "Check http://t.co/x #Flood!! @user 123 now") = "check flood now" := by
  decide

example : clean_text (some "h.ttpx y") = "httpx y" := by decide

example : clean_text (some "httpx y") = "y" := by decide

/-! ### `HazardDetector` pattern tables

`hazard_detector.py` defines `hazard_patterns` (eight hazard types, each
an ordered list of regular expressions) and `severity_indicators`
(three tiers of keyword patterns).  The regexes use only literal
characters, `\s*`, `(…)?` and `(…|…)` groups, captured by the `RE`
syntax tree below. -/

inductive RE
  | eps
  | lit (c : Char)
  | seq (a b : RE)
  | alt (a b : RE)
  | opt (a : RE)
  | wsStar

/-- Literal regex for a string of characters. -/
def reOfChars : List Char → RE
  | [] => RE.eps
  | c :: cs => RE.seq (RE.lit c) (reOfChars cs)

def reLit (s : String) : RE := reOfChars s.data

/-- `a\s*b`. -/
def reWs (a b : RE) : RE := RE.seq a (RE.seq RE.wsStar b)

/-- `a` followed by an optional `s` — the `(s)?` / `s?` idiom. -/
def reOptS (a : RE) : RE := RE.seq a (RE.opt (RE.lit 's'))

/-- Remainders after `\s*` consumes a (possibly empty) run of leading
whitespace. -/
def wsRems : List Char → List (List Char)
  | [] => [[]]
  | c :: cs => (c :: cs) :: (if isSpaceChar c then wsRems cs else [])

/-- All remainders of `s` after a match of `r` consumes some of its
leading characters. -/
def matchRem : RE → List Char → List (List Char)
  | RE.eps, s => [s]
  | RE.lit _, [] => []
  | RE.lit c, x :: xs => if x == c then [xs] else []
  | RE.seq a b, s => (matchRem a s).flatMap (matchRem b)
  | RE.alt a b, s => matchRem a s ++ matchRem b s
  | RE.opt a, s => s :: matchRem a s
  | RE.wsStar, s => wsRems s

/-- `re.search`-style existence: `r` matches starting at some position
of `s`. -/
def reSearch (r : RE) (s : List Char) : Bool :=
  s.tails.any (fun t => !(matchRem r t).isEmpty)

/-- `HazardDetector.hazard_patterns`, in dictionary order. -/
def hazard_patterns : List (String × List RE) :=
  [("flood",
    [RE.seq (reLit "flood") (RE.opt (reLit "ing")),
     RE.seq (reLit "water level") (RE.seq (RE.opt (RE.lit 's')) (reLit " rise")),
     reLit "submerged",
     RE.seq (reLit "inundat") (RE.alt (RE.lit 'e') (reLit "ion"))]),
   ("storm_surge",
    [reWs (reLit "storm") (reLit "surge"),
     reWs (reLit "surge") (reLit "warning"),
     reWs (reLit "coastal") (reLit "surge"),
     reWs (reLit "sea") (reWs (reLit "level") (reLit "rise"))]),
   ("tsunami",
    [reLit "tsunami",
     reWs (reLit "tidal") (reLit "wave"),
     reWs (reLit "seismic") (reWs (reLit "sea") (reLit "wave"))]),
   ("high_waves",
    [reWs (reLit "high") (reOptS (reLit "wave")),
     reWs (reLit "large") (reOptS (reLit "wave")),
     reWs (reLit "dangerous") (reOptS (reLit "wave")),
     reWs (reLit "rough") (reOptS (reLit "sea")),
     reWs (reLit "wave") (reLit "height")]),
   ("erosion",
    [reLit "erosion",
     reWs (reLit "coastal") (reLit "erosion"),
     reWs (reLit "beach") (reLit "loss"),
     reWs (reLit "shoreline") (reLit "retreat")]),
   ("marine_pollution",
    [reWs (reLit "oil") (reLit "spill"),
     RE.seq (reLit "pollut") (RE.alt (RE.lit 'e') (reLit "ion")),
     RE.seq (reLit "contaminat") (RE.alt (RE.lit 'e') (reLit "ion")),
     reWs (reLit "marine") (reLit "debris"),
     reWs (reLit "plastic") (reLit "waste")]),
   ("harmful_algal_bloom",
    [reWs (reLit "harmful") (reWs (reLit "algal") (reLit "bloom")),
     reWs (reLit "red") (reLit "tide"),
     reWs (reLit "blue") (reLit "tide"),
     reWs (reLit "algal") (reLit "bloom")]),
   ("coastal_storm",
    [reWs (reLit "coastal") (reLit "storm"),
     reWs (reLit "tropical") (reLit "storm"),
     reLit "hurricane",
     reLit "typhoon",
     reLit "cyclone"])]

/-- `HazardDetector.severity_indicators`.  Every indicator pattern is a
literal word (the lone `-` in `life-threatening` is a literal), so a
regex search for it is a substring search. -/
def severity_indicators : List (String × List String) :=
  [("high",
    ["major", "severe", "catastrophic", "dangerous", "urgent", "emergency",
     "critical", "extreme", "life-threatening", "evacuation", "damage",
     "destroy", "collapse", "injured", "casualty", "fatal"]),
   ("medium",
    ["moderate", "significant", "noticeable", "concerning", "warning",
     "alert", "precautionary", "potential", "possible", "expected"]),
   ("low",
    ["minor", "slight", "mild", "small", "observation", "monitoring",
     "update", "information"])]

/-- `needle` is a leading run of `hay`. -/
def leadsWith : List Char → List Char → Bool
  | [], _ => true
  | _ :: _, [] => false
  | n :: ns, h :: hs => n == h && leadsWith ns hs

/-- Substring search: `needle` occurs somewhere in `hay`. -/
def containsWord (needle : String) (hay : List Char) : Bool :=
  hay.tails.any (fun t => leadsWith needle.data t)

def toLowerL (s : List Char) : List Char := s.map toLowerChar

/-- Some indicator of `tier` matches (case-insensitively) in `text`. -/
def anyIndicator (tier : String) (text : String) : Bool :=
  ((severity_indicators.lookup tier).getD []).any
    (fun w => containsWord w (toLowerL text.data))

/-- Modelled from the spec: the severity-resolution method of
`HazardDetector` (the checked-in `hazard_detector.py` stops inside the
location-pattern table, before any method; only its indicator tables are
present).  Spec §4.3: scan text for indicator matches at all three
tiers; `high` indicators give severity `high`; else `medium` indicators
give `medium`; else `low` indicators give `low`; else `unknown`. -/
def determine_severity (text : String) : String :=
  if anyIndicator "high" text then "high"
  else if anyIndicator "medium" text then "medium"
  else if anyIndicator "low" text then "low"
  else "unknown"

/-- Modelled from the spec: the hazard-classification method of
`HazardDetector` (missing from the checked-in file as above).  Spec
§4.3: each hazard type's ordered case-insensitive patterns are matched
against the raw text (not the lemmatized form); **all** matching types
are tagged, not the first match only. -/
def detect_hazards (text : String) : List String :=
  (hazard_patterns.filter
    (fun p => p.2.any (fun r => reSearch r (toLowerL text.data)))).map
    (fun p => p.1)

example : determine_severity "minor update on beach conditions" = "low" := by decide

example : detect_hazards "major flooding... dangerous waves" = ["flood", "high_waves"] := by
  decide

example : determine_severity "major flooding... dangerous waves" = "high" := by decide

example : detect_hazards "major traffic" = [] := by decide

example : determine_severity "major traffic" = "high" := by decide

/-! ### `NLPProcessor.preprocess_text` and friends

`tokenize_text` calls NLTK's `word_tokenize`, `remove_stopwords` uses the
NLTK English stopword corpus, and `lemmatize_tokens` uses NLTK's
`WordNetLemmatizer`.  Those third-party components are modelled as
parameters (`wordTok`, `stop`, `lem`); the repository's own guard logic
around them is embedded as written.  `self.lemmatizer` can be `None`
(set in the `__init__` failure path), hence `lem : Option (String → String)`. -/

structure NormalizedText where
  original_text : Option String
  cleaned_text : String
  tokens : List String
  tokens_no_stopwords : List String
  lemmatized_tokens : List String
  processed_text : String
deriving DecidableEq

/-- `NLPProcessor.tokenize_text`: guard for falsy / non-string input,
then `word_tokenize`. -/
def tokenize_text (wordTok : String → List String) : Option String → List String
  | none => []
  | some t => if t = "" then [] else wordTok t

/-- `NLPProcessor.remove_stopwords`: guard for falsy input, then keep
tokens not in the stopword set. -/
def remove_stopwords (stop : List String) (tokens : List String) : List String :=
  if tokens = [] then [] else tokens.filter (fun t => !stop.contains t)

/-- `NLPProcessor.lemmatize_tokens`: if the token list is falsy or the
lemmatizer is `None`, return the tokens unchanged; else lemmatize each. -/
def lemmatize_tokens (lem : Option (String → String)) (tokens : List String) : List String :=
  if tokens = [] then tokens
  else match lem with
    | none => tokens
    | some f => tokens.map f

/-- `NLPProcessor.preprocess_text`: clean, tokenize, remove stopwords,
lemmatize, and join the lemmas with spaces. -/
def preprocess_text (wordTok : String → List String) (stop : List String)
    (lem : Option (String → String)) (text : Option String) : NormalizedText :=
  let cleaned := clean_text text
  let tokens := tokenize_text wordTok (some cleaned)
  let noStop := remove_stopwords stop tokens
  let lemmas := lemmatize_tokens lem noStop
  { original_text := text
    cleaned_text := cleaned
    tokens := tokens
    tokens_no_stopwords := noStop
    lemmatized_tokens := lemmas
    processed_text := String.intercalate " " lemmas }

/-- The empty `NormalizedText` produced for empty or non-string input. -/
def emptyNormalized (text : Option String) : NormalizedText :=
  { original_text := text
    cleaned_text := ""
    tokens := []
    tokens_no_stopwords := []
    lemmatized_tokens := []
    processed_text := "" }

/-! ### `NLPProcessor.extract_keywords` -/

/-- One step of `word_freq[token] = word_freq.get(token, 0) + 1` on a
Python 3.7+ dict, which preserves insertion order: an existing key keeps
its position and is incremented, a new key is appended. -/
def bumpWord (acc : List (String × Nat)) (w : String) : List (String × Nat) :=
  if (acc.lookup w).isSome then
    acc.map (fun p => if p.1 = w then (p.1, p.2 + 1) else p)
  else acc ++ [(w, 1)]

/-- The `word_freq` dict after the counting loop: occurrence counts of
the lemmatized tokens of length `> 2`, keyed in first-occurrence order. -/
def word_freq (lemmas : List String) : List (String × Nat) :=
  lemmas.foldl (fun acc w => if w.length > 2 then bumpWord acc w else acc) []

/-- Python's `sorted(…, key=lambda x: x[1], reverse=True)` is a stable
descending sort by count, i.e. the unique ordering by the total order
(count descending, original dict position ascending). -/
def keywordLe (a b : Nat × (String × Nat)) : Bool :=
  decide (b.2.2 < a.2.2 ∨ (a.2.2 = b.2.2 ∧ a.1 ≤ b.1))

def sorted_words (freqs : List (String × Nat)) : List (String × Nat) :=
  (freqs.enum.mergeSort keywordLe).map (fun p => p.2)

/-- `NLPProcessor.extract_keywords`: guard, preprocess, count, stable
sort by descending frequency, take the top `top_n` (default 5). -/
def extract_keywords (wordTok : String → List String) (stop : List String)
    (lem : Option (String → String)) (text : Option String) (top_n : Nat) :
    List (String × Nat) :=
  match text with
  | none => []
  | some t =>
    if t = "" then []
    else
      (sorted_words (word_freq
        (preprocess_text wordTok stop lem (some t)).lemmatized_tokens)).take top_n

/-! ### `NLPProcessor.analyze_sentiment`

The DistilBERT call (`self.sentiment_tokenizer` / `self.sentiment_model`
plus the softmax) is an external model; it is modelled as a `scorer`
parameter returning `none` when any step of the `try` block raises, and
`some (negative, positive)` otherwise.  Probabilities are modelled as
rationals. -/

structure SentimentResult where
  negative : ℚ
  positive : ℚ
  label : String
deriving DecidableEq

/-- The conservative default returned for empty / non-string text and in
the `except` branch. -/
def sentimentDefault : SentimentResult :=
  { negative := 1, positive := 0, label := "negative" }

/-- `NLPProcessor.analyze_sentiment`. -/
def analyze_sentiment (scorer : String → Option (ℚ × ℚ)) :
    Option String → SentimentResult
  | none => sentimentDefault
  | some t =>
    if t = "" then sentimentDefault
    else
      match scorer t with
      | none => sentimentDefault
      | some (n, p) =>
        { negative := n, positive := p
          label := if n < p then "positive" else "negative" }

/-! ### Dashboard rolling history

`OceanHazardDashboard.collect_and_analyze_data` (and
`_generate_mock_data`) extend `self.hazard_history` with the new batch
and then truncate: `if len(self.hazard_history) > 1000:
self.hazard_history = self.hazard_history[-1000:]`. -/

def historyMax : Nat := 1000

/-- One collect-and-truncate step on the rolling history. -/
def history_append {α : Type} (hist batch : List α) : List α :=
  let h := hist ++ batch
  if historyMax < h.length then h.drop (h.length - historyMax) else h

/-! ### Prioritizer ordering -/

/-- The fields of a prioritized report that the ordering reads.
Timestamps are ISO-8601 instants, which order chronologically as
strings; `priority` is the numeric score. -/
structure PReport where
  id : String
  timestamp : String
  priority : ℚ
deriving DecidableEq

/-- Strict lexicographic order on character lists (the order Python
uses to compare the ISO-8601 timestamp and id strings). -/
def lexLt : List Char → List Char → Bool
  | _, [] => false
  | [], _ :: _ => true
  | a :: as, b :: bs => decide (a < b) || (a == b && lexLt as bs)

/-- `a` strictly outranks `b`: higher priority, or same priority and a
more recent timestamp, or both equal and a lexicographically smaller
id. -/
def reportBefore (a b : PReport) : Prop :=
  b.priority < a.priority ∨ (a.priority = b.priority ∧
    (lexLt b.timestamp.data a.timestamp.data = true ∨
      (a.timestamp = b.timestamp ∧ lexLt a.id.data b.id.data = true)))

instance (a b : PReport) : Decidable (reportBefore a b) := by
  unfold reportBefore; infer_instance

/-- Modelled from the spec: the ordering used by
`HazardDetector.prioritize_reports` (the method is called from
`dashboard.py` but missing from the checked-in `hazard_detector.py`).
Spec §4.4: descending priority; ties broken by most-recent timestamp
first, then by report id ascending. -/
def reportLe (a b : PReport) : Bool :=
  decide (a = b ∨ reportBefore a b)

/-- Modelled from the spec: `HazardDetector.prioritize_reports` (missing
from the checked-in file as above) returns the batch sorted by
`reportLe`. -/
def prioritize_reports (batch : List PReport) : List PReport :=
  batch.mergeSort reportLe

/-! ### Lemmas about the rolling history -/

lemma history_append_length_le {α : Type} (hist batch : List α) :
    hist.length ≤ historyMax → (history_append hist batch).length ≤ historyMax := by
  intro _
  unfold history_append
  by_cases h : historyMax < (hist ++ batch).length
  · simp only [h, if_true, List.length_drop]
    omega
  · simp only [h, if_false]
    omega

lemma history_append_suffix {α : Type} (hist batch : List α) :
    (history_append hist batch) <:+ hist ++ batch := by
  unfold history_append
  by_cases h : historyMax < (hist ++ batch).length
  · simp only [h, if_true]
    exact List.drop_suffix _ _
  · simp only [h, if_false]
    exact List.suffix_rfl

lemma suffix_append_right {α : Type} {l m : List α} (k : List α) (h : l <:+ m) :
    l ++ k <:+ m ++ k := by
  obtain ⟨u, rfl⟩ := h
  exact ⟨u, (List.append_assoc u l k).symm⟩

lemma history_foldl_spec {α : Type} (batches : List (List α)) :
    ∀ acc : List α, acc.length ≤ historyMax →
      (batches.foldl history_append acc).length ≤ historyMax ∧
      (batches.foldl history_append acc) <:+ acc ++ batches.flatten := by
  induction batches with
  | nil => intro acc h; exact ⟨h, by simp⟩
  | cons b bs ih =>
    intro acc h
    have hstep := history_append_length_le acc b h
    obtain ⟨h1, h2⟩ := ih (history_append acc b) hstep
    refine ⟨h1, h2.trans ?_⟩
    have := suffix_append_right bs.flatten (history_append_suffix acc b)
    simpa [List.append_assoc] using this

/-- **C8.** Starting from the empty history, after any sequence of
collect-and-truncate steps the rolling history holds at most
`historyMax = 1000` entries, and it is a suffix of the concatenation of
all appended batches: when the bound forces eviction, the evicted
entries are exactly the oldest ones (FIFO). -/
theorem history_bounded_fifo {α : Type} (batches : List (List α)) :
    (batches.foldl history_append ([] : List α)).length ≤ historyMax ∧
    (batches.foldl history_append ([] : List α)) <:+ batches.flatten := by
  have h := history_foldl_spec batches [] (by simp [historyMax])
  simpa using h

/-- **C8 witness.** Concrete run: three appends of 400 copies each stay
bounded by 1000 and keep the most recent entries. -/
theorem history_bounded_fifo_witness :
    ((List.replicate 3 (List.replicate 400 0)).foldl history_append
      ([] : List ℕ)).length ≤ historyMax ∧
    ((List.replicate 3 (List.replicate 400 0)).foldl history_append
      ([] : List ℕ)) <:+ (List.replicate 3 (List.replicate 400 0)).flatten :=
  history_bounded_fifo (List.replicate 3 (List.replicate 400 0))

/-- **C9.** Normalization is total on empty and non-string input: for
every choice of the external tokenizer, stopword set and lemmatizer,
`preprocess_text` maps `None` and the empty string to the empty
`NormalizedText` (empty cleaned text, token, stopword-filtered and
lemma sequences); the embedding is a total function, mirroring the
guard clauses that keep the Python code from raising. -/
theorem preprocess_total_on_empty (wordTok : String → List String)
    (stop : List String) (lem : Option (String → String)) :
    preprocess_text wordTok stop lem none = emptyNormalized none ∧
    preprocess_text wordTok stop lem (some "") = emptyNormalized (some "") := by
  constructor <;> rfl

/-- **C5.** Sentiment analysis fails safe: `None`, the empty string and
scorer failure all yield `{negative := 1, positive := 0, label :=
"negative"}`, and whenever the external scorer meets its contract
(§6: probabilities sum to 1) the returned probabilities sum to 1 within
`1e-6` for every input, the failure default included. -/
theorem analyze_sentiment_failsafe (scorer : String → Option (ℚ × ℚ))
    (text : Option String)
    (hscorer : ∀ t n p, scorer t = some (n, p) → n + p = 1) :
    analyze_sentiment scorer none = sentimentDefault ∧
    analyze_sentiment scorer (some "") = sentimentDefault ∧
    (∀ t, scorer t = none → analyze_sentiment scorer (some t) = sentimentDefault) ∧
    sentimentDefault =
      { negative := 1, positive := 0, label := "negative" } ∧
    |(analyze_sentiment scorer text).negative +
      (analyze_sentiment scorer text).positive - 1| ≤ 1 / 1000000 := by
  refine ⟨rfl, rfl, ?_, rfl, ?_⟩
  · intro t ht
    unfold analyze_sentiment
    by_cases h : t = ""
    · simp [h]
    · simp [h, ht]
  · match text with
    | none => simp [analyze_sentiment, sentimentDefault]
    | some t =>
      by_cases h : t = ""
      · simp [analyze_sentiment, h, sentimentDefault]
      · cases hs : scorer t with
        | none => simp [analyze_sentiment, h, hs, sentimentDefault]
        | some np =>
          obtain ⟨n, p⟩ := np
          have := hscorer t n p hs
          simp [analyze_sentiment, h, hs, this]

/-- **C5 witness.** A concrete run with a scorer honouring the contract. -/
theorem analyze_sentiment_failsafe_witness :
    (∀ t n p, (fun _ : String => some ((1 : ℚ)/2, (1 : ℚ)/2)) t = some (n, p) →
      n + p = 1) ∧
    analyze_sentiment (fun _ => some ((1 : ℚ)/2, (1 : ℚ)/2)) none = sentimentDefault ∧
    |(analyze_sentiment (fun _ => some ((1 : ℚ)/2, (1 : ℚ)/2))
        (some "rough seas")).negative +
      (analyze_sentiment (fun _ => some ((1 : ℚ)/2, (1 : ℚ)/2))
        (some "rough seas")).positive - 1| ≤ 1 / 1000000 := by
  have hc : ∀ t n p, (fun _ : String => some ((1 : ℚ)/2, (1 : ℚ)/2)) t = some (n, p) →
      n + p = 1 := by
    intro t n p h
    simp only [Option.some.injEq, Prod.mk.injEq] at h
    rw [← h.1, ← h.2]
    norm_num
  have h := analyze_sentiment_failsafe (fun _ => some ((1 : ℚ)/2, (1 : ℚ)/2))
    (some "rough seas") hc
  exact ⟨hc, h.1, h.2.2.2.2⟩

/-! ### Lemmas about the prioritizer ordering -/

lemma lexLt_irrefl (l : List Char) : lexLt l l = false := by
  induction l with
  | nil => rfl
  | cons a as ih => simp [lexLt, ih]

lemma lexLt_trans : ∀ {a b c : List Char},
    lexLt a b = true → lexLt b c = true → lexLt a c = true := by
  intro a
  induction a with
  | nil =>
    intro b c hab hbc
    cases c with
    | nil => cases b <;> simp [lexLt] at hab hbc
    | cons z zs => rfl
  | cons x xs ih =>
    intro b c hab hbc
    cases b with
    | nil => simp [lexLt] at hab
    | cons y ys =>
      cases c with
      | nil => simp [lexLt] at hbc
      | cons z zs =>
        simp only [lexLt, Bool.or_eq_true, Bool.and_eq_true, beq_iff_eq,
          decide_eq_true_iff] at hab hbc ⊢
        rcases hab with h1 | ⟨rfl, h1⟩
        · rcases hbc with h2 | ⟨rfl, h2⟩
          · exact Or.inl (h1.trans h2)
          · exact Or.inl h1
        · rcases hbc with h2 | ⟨rfl, h2⟩
          · exact Or.inl h2
          · exact Or.inr ⟨rfl, ih h1 h2⟩

lemma lexLt_connex : ∀ {a b : List Char},
    lexLt a b = false → lexLt b a = false → a = b := by
  intro a
  induction a with
  | nil =>
    intro b hab _
    cases b with
    | nil => rfl
    | cons y ys => simp [lexLt] at hab
  | cons x xs ih =>
    intro b hab hba
    cases b with
    | nil => simp [lexLt] at hba
    | cons y ys =>
      simp only [lexLt, Bool.or_eq_false_iff, Bool.and_eq_false_iff,
        beq_eq_false_iff_ne, ne_eq, decide_eq_false_iff_not] at hab hba
      have hxy : x = y := le_antisymm (not_lt.mp hba.1) (not_lt.mp hab.1)
      subst hxy
      rcases hab.2 with h | h
      · exact absurd rfl h
      · rcases hba.2 with h' | h'
        · exact absurd rfl h'
        · rw [ih h h']

lemma lexLt_asymm {a b : List Char} (h : lexLt a b = true) : lexLt b a = false := by
  cases hba : lexLt b a with
  | false => rfl
  | true =>
    have := lexLt_trans h hba
    simp [lexLt_irrefl] at this

lemma stringDataEq {s t : String} (h : s.data = t.data) : s = t := by
  cases s; cases t; exact congrArg String.mk h

lemma reportBefore_trans {a b c : PReport} :
    reportBefore a b → reportBefore b c → reportBefore a c := by
  rintro (h1 | ⟨e1, h1⟩) (h2 | ⟨e2, h2⟩)
  · exact Or.inl (h2.trans h1)
  · exact Or.inl (e2 ▸ h1)
  · exact Or.inl (e1 ▸ h2)
  · refine Or.inr ⟨e1.trans e2, ?_⟩
    rcases h1 with h1 | ⟨f1, h1⟩
    · rcases h2 with h2 | ⟨f2, h2⟩
      · exact Or.inl (lexLt_trans h2 h1)
      · exact Or.inl (f2 ▸ h1)
    · rcases h2 with h2 | ⟨f2, h2⟩
      · exact Or.inl (f1 ▸ h2)
      · exact Or.inr ⟨f1.trans f2, lexLt_trans h1 h2⟩

lemma reportBefore_irrefl (a : PReport) : ¬ reportBefore a a := by
  rintro (h | ⟨_, h | ⟨_, h⟩⟩)
  · exact lt_irrefl _ h
  · simp [lexLt_irrefl] at h
  · simp [lexLt_irrefl] at h

lemma reportBefore_connex {a b : PReport} (h : a ≠ b) :
    reportBefore a b ∨ reportBefore b a := by
  rcases lt_trichotomy a.priority b.priority with hp | hp | hp
  · exact Or.inr (Or.inl hp)
  · cases hts : lexLt b.timestamp.data a.timestamp.data with
    | true => exact Or.inl (Or.inr ⟨hp, Or.inl hts⟩)
    | false =>
      cases hts' : lexLt a.timestamp.data b.timestamp.data with
      | true => exact Or.inr (Or.inr ⟨hp.symm, Or.inl hts'⟩)
      | false =>
        have hteq : a.timestamp = b.timestamp :=
          stringDataEq (lexLt_connex hts' hts)
        cases hid : lexLt a.id.data b.id.data with
        | true => exact Or.inl (Or.inr ⟨hp, Or.inr ⟨hteq, hid⟩⟩)
        | false =>
          cases hid' : lexLt b.id.data a.id.data with
          | true => exact Or.inr (Or.inr ⟨hp.symm, Or.inr ⟨hteq.symm, hid'⟩⟩)
          | false =>
            exfalso
            apply h
            have hideq : a.id = b.id := stringDataEq (lexLt_connex hid hid')
            obtain ⟨ia, ta, pa⟩ := a
            obtain ⟨ib, tb, pb⟩ := b
            simp only at hp hteq hideq
            rw [hp, hteq, hideq]
  · exact Or.inl (Or.inl hp)

lemma reportLe_trans (a b c : PReport) :
    reportLe a b = true → reportLe b c = true → reportLe a c = true := by
  simp only [reportLe, decide_eq_true_iff]
  rintro (rfl | h1) (rfl | h2)
  · exact Or.inl rfl
  · exact Or.inr h2
  · exact Or.inr h1
  · exact Or.inr (reportBefore_trans h1 h2)

lemma reportLe_total (a b : PReport) :
    (reportLe a b || reportLe b a) = true := by
  simp only [reportLe, Bool.or_eq_true, decide_eq_true_iff]
  by_cases h : a = b
  · exact Or.inl (Or.inl h)
  · rcases reportBefore_connex h with h' | h'
    · exact Or.inl (Or.inr h')
    · exact Or.inr (Or.inr h')

lemma reportLe_antisymm (a b : PReport) :
    reportLe a b = true → reportLe b a = true → a = b := by
  simp only [reportLe, decide_eq_true_iff]
  rintro (h1 | h1) (h2 | h2)
  · exact h1
  · exact h1
  · exact h2.symm
  · exact absurd (reportBefore_trans h1 h2) (reportBefore_irrefl a)

/-- **C3.** The prioritizer returns a permutation of the batch, sorted
by descending priority with ties broken by most-recent timestamp and
then ascending id; the empty batch yields the empty list; and the
resulting order is the *unique* such ordering (the comparator is a
total, antisymmetric order on the report key fields), hence
deterministic and reproducible. -/
theorem prioritize_reports_spec (batch : List PReport) :
    prioritize_reports ([] : List PReport) = [] ∧
    (prioritize_reports batch).Perm batch ∧
    List.Sorted (fun a b => reportLe a b = true) (prioritize_reports batch) ∧
    (∀ l : List PReport, l.Perm batch →
      List.Sorted (fun a b => reportLe a b = true) l →
      l = prioritize_reports batch) := by
  refine ⟨by simp [prioritize_reports], List.mergeSort_perm batch reportLe, ?_, ?_⟩
  · exact List.sorted_mergeSort reportLe_trans reportLe_total batch
  · intro l hperm hsorted
    haveI : IsAntisymm PReport (fun a b => reportLe a b = true) :=
      ⟨reportLe_antisymm⟩
    exact List.eq_of_perm_of_sorted
      (hperm.trans (List.mergeSort_perm batch reportLe).symm) hsorted
      (List.sorted_mergeSort reportLe_trans reportLe_total batch)

/-- **C3 witness.** A concrete three-report batch: the high-priority
report leads, the timestamp breaks the tie between the other two, and
re-sorting the already-sorted output reproduces it. -/
theorem prioritize_reports_spec_witness :
    (prioritize_reports
      [⟨"r2", "2024-05-01T10:00:00", 1⟩,
       ⟨"r1", "2024-05-01T12:00:00", 3⟩,
       ⟨"r3", "2024-05-01T11:00:00", 1⟩]).Perm
      [⟨"r2", "2024-05-01T10:00:00", 1⟩,
       ⟨"r1", "2024-05-01T12:00:00", 3⟩,
       ⟨"r3", "2024-05-01T11:00:00", 1⟩] ∧
    [(⟨"r1", "2024-05-01T12:00:00", 3⟩ : PReport),
       ⟨"r3", "2024-05-01T11:00:00", 1⟩,
       ⟨"r2", "2024-05-01T10:00:00", 1⟩] =
      prioritize_reports
        [⟨"r2", "2024-05-01T10:00:00", 1⟩,
         ⟨"r1", "2024-05-01T12:00:00", 3⟩,
         ⟨"r3", "2024-05-01T11:00:00", 1⟩] := by
  have h := prioritize_reports_spec
    [⟨"r2", "2024-05-01T10:00:00", 1⟩,
     ⟨"r1", "2024-05-01T12:00:00", 3⟩,
     ⟨"r3", "2024-05-01T11:00:00", 1⟩]
  refine ⟨h.2.1, h.2.2.2 _ ?_ ?_⟩
  · decide
  · show List.Pairwise _ _
    decide

/-- **C1.** Severity resolution follows the tier precedence
high > medium > low > unknown over the indicator tables of
`hazard_detector.py`, and on the precedence test text
"minor update on beach conditions" it resolves to `low`: no `medium` or
`high` indicator leaks a false match there. -/
theorem determine_severity_spec :
    (∀ text : String, anyIndicator "high" text = true →
      determine_severity text = "high") ∧
    (∀ text : String, anyIndicator "high" text = false →
      anyIndicator "medium" text = true → determine_severity text = "medium") ∧
    (∀ text : String, anyIndicator "high" text = false →
      anyIndicator "medium" text = false → anyIndicator "low" text = true →
      determine_severity text = "low") ∧
    (∀ text : String, anyIndicator "high" text = false →
      anyIndicator "medium" text = false → anyIndicator "low" text = false →
      determine_severity text = "unknown") ∧
    determine_severity "minor update on beach conditions" = "low" := by
  refine ⟨?_, ?_, ?_, ?_, by decide⟩
  · intro text h; simp [determine_severity, h]
  · intro text h1 h2; simp [determine_severity, h1, h2]
  · intro text h1 h2 h3; simp [determine_severity, h1, h2, h3]
  · intro text h1 h2 h3; simp [determine_severity, h1, h2, h3]

/-- **C1 witness.** The tier precedence applied at concrete texts. -/
theorem determine_severity_spec_witness :
    (anyIndicator "high" "severe erosion" = true ∧
      determine_severity "severe erosion" = "high") ∧
    (anyIndicator "high" "possible erosion" = false ∧
      anyIndicator "medium" "possible erosion" = true ∧
      determine_severity "possible erosion" = "medium") ∧
    (anyIndicator "high" "tide" = false ∧
      anyIndicator "medium" "tide" = false ∧
      anyIndicator "low" "tide" = false ∧
      determine_severity "tide" = "unknown") :=
  ⟨⟨by decide, determine_severity_spec.1 "severe erosion" (by decide)⟩,
   ⟨by decide, by decide,
    determine_severity_spec.2.1 "possible erosion" (by decide) (by decide)⟩,
   ⟨by decide, by decide, by decide,
    determine_severity_spec.2.2.2.1 "tide" (by decide) (by decide) (by decide)⟩⟩

/-- **C2.** Hazard classification tags exactly the hazard types whose
case-insensitive pattern list matches somewhere in the raw text — all
matching types, not only the first — and on the compound test text
"major flooding... dangerous waves" it tags both `flood` and
`high_waves`, with severity `high`. -/
theorem detect_hazards_spec :
    (∀ (text : String) (h : String), h ∈ detect_hazards text ↔
      ∃ ps, (h, ps) ∈ hazard_patterns ∧
        ∃ r ∈ ps, reSearch r (toLowerL text.data) = true) ∧
    detect_hazards "major flooding... dangerous waves" = ["flood", "high_waves"] ∧
    determine_severity "major flooding... dangerous waves" = "high" := by
  refine ⟨?_, by decide, by decide⟩
  intro text h
  simp only [detect_hazards, List.mem_map, List.mem_filter, List.any_eq_true]
  constructor
  · rintro ⟨⟨k, ps⟩, ⟨hmem, r, hr, hsearch⟩, rfl⟩
    exact ⟨ps, hmem, r, hr, hsearch⟩
  · rintro ⟨ps, hmem, r, hr, hsearch⟩
    exact ⟨(h, ps), ⟨hmem, r, hr, hsearch⟩, rfl⟩

/-- **C6 counterexample.** The text "major traffic" matches a `high`
severity indicator but no hazard pattern: the classification has
severity `high ≠ unknown` with an *empty* hazard-tag set, refuting the
claimed invariant. -/
theorem severity_without_tags_counterexample :
    determine_severity "major traffic" = "high" ∧
    determine_severity "major traffic" ≠ "unknown" ∧
    detect_hazards "major traffic" = [] := by
  refine ⟨by decide, ?_, by decide⟩
  intro h
  simp only [show determine_severity "major traffic" = "high" from by decide] at h
  exact absurd h (by decide)

/-- **C6 amended.** Severity is independent of the hazard-tag set: it is
not `unknown` exactly when some severity indicator matches, and a
classification may pair a non-`unknown` severity with an empty tag set
(spec §4.3 records the severity even when no hazard type matches). -/
theorem severity_indicator_iff :
    (∀ text : String, determine_severity text ≠ "unknown" ↔
      (anyIndicator "high" text || anyIndicator "medium" text ||
        anyIndicator "low" text) = true) ∧
    determine_severity "major traffic" ≠ "unknown" ∧
    detect_hazards "major traffic" = [] := by
  refine ⟨?_, ?_, by decide⟩
  case refine_2 =>
    intro h
    simp only [show determine_severity "major traffic" = "high" from by decide] at h
    exact absurd h (by decide)
  intro text
  unfold determine_severity
  by_cases h1 : anyIndicator "high" text
  · simp [h1]
  · by_cases h2 : anyIndicator "medium" text
    · simp [h1, h2]
    · by_cases h3 : anyIndicator "low" text
      · simp [h1, h2, h3]
      · simp [h1, h2, h3]

/-! ### Structural invariants of `clean_text` -/

/-- A cleaned character: not an ASCII uppercase letter, digit or
punctuation character. -/
def cleanChar (c : Char) : Prop :=
  isUpperChar c = false ∧ isDigitChar c = false ∧ isPunctChar c = false

/-- Every whitespace character of `l` is a plain blank. -/
def wsIsBlank (l : List Char) : Prop :=
  ∀ c ∈ l, isSpaceChar c = true → c = ' '

/-- No two consecutive whitespace characters. -/
def noDoubleWs (l : List Char) : Prop :=
  List.Chain' (fun a b => ¬(isSpaceChar a = true ∧ isSpaceChar b = true)) l

lemma toNat_charOfNat {n : Nat} (h : n.isValidChar) : (Char.ofNat n).toNat = n := by
  simp [Char.ofNat, h, Char.ofNatAux, Char.toNat, UInt32.toNat, UInt32.ofNatCore]

lemma isUpperChar_toLowerChar (c : Char) : isUpperChar (toLowerChar c) = false := by
  by_cases h : 65 ≤ c.toNat ∧ c.toNat ≤ 90
  · have hv : (c.toNat + 32).isValidChar := Or.inl (by omega)
    have ht : (toLowerChar c).toNat = c.toNat + 32 := by
      rw [toLowerChar, if_pos h]
      exact toNat_charOfNat hv
    simp only [isUpperChar, ht, decide_eq_false_iff_not]
    omega
  · rw [toLowerChar, if_neg h]
    simp only [isUpperChar, decide_eq_false_iff_not]
    exact h

lemma removeUrlsGo_sublist :
    ∀ (m : Bool) (s : List Char), (removeUrlsGo m s).Sublist s := by
  intro m s
  induction s generalizing m with
  | nil => cases m <;> simp [removeUrlsGo]
  | cons x xs ih =>
    cases m with
    | true =>
      cases hs : isSpaceChar x with
      | true =>
        simp only [removeUrlsGo, hs, if_true]
        exact (ih false).cons₂ x
      | false =>
        simp only [removeUrlsGo, hs, Bool.false_eq_true, if_false]
        exact (ih true).cons x
    | false =>
      cases hu : startsUrl (x :: xs) with
      | true =>
        simp only [removeUrlsGo, hu, if_true]
        exact (ih true).cons x
      | false =>
        simp only [removeUrlsGo, hu, Bool.false_eq_true, if_false]
        exact (ih false).cons₂ x

lemma removeMentionsGo_sublist :
    ∀ (m : Bool) (s : List Char), (removeMentionsGo m s).Sublist s := by
  intro m s
  induction s generalizing m with
  | nil => cases m <;> simp [removeMentionsGo]
  | cons x xs ih =>
    cases m with
    | true =>
      cases hw : isWordChar x with
      | true =>
        simp only [removeMentionsGo, hw, if_true]
        exact (ih true).cons x
      | false =>
        cases hm : startsMention (x :: xs) with
        | true =>
          simp only [removeMentionsGo, hw, hm, Bool.false_eq_true, if_false, if_true]
          exact (ih true).cons x
        | false =>
          simp only [removeMentionsGo, hw, hm, Bool.false_eq_true, if_false]
          exact (ih false).cons₂ x
    | false =>
      cases hm : startsMention (x :: xs) with
      | true =>
        simp only [removeMentionsGo, hm, if_true]
        exact (ih true).cons x
      | false =>
        simp only [removeMentionsGo, hm, Bool.false_eq_true, if_false]
        exact (ih false).cons₂ x

lemma hashtagGo_sublist :
    ∀ (m : Bool) (s : List Char), (hashtagGo m s).Sublist s := by
  intro m s
  induction s generalizing m with
  | nil => cases m <;> simp [hashtagGo]
  | cons x xs ih =>
    cases m with
    | true =>
      simp only [hashtagGo]
      exact (ih _).cons₂ x
    | false =>
      cases ht : startsTag (x :: xs) with
      | true =>
        simp only [hashtagGo, ht, if_true]
        exact (ih true).cons x
      | false =>
        simp only [hashtagGo, ht, Bool.false_eq_true, if_false]
        exact (ih false).cons₂ x

lemma mem_collapseGo {c : Char} :
    ∀ (m : Bool) (s : List Char), c ∈ collapseGo m s →
      c = ' ' ∨ (c ∈ s ∧ isSpaceChar c = false) := by
  intro m s
  induction s generalizing m with
  | nil => intro h; cases m <;> simp [collapseGo] at h
  | cons x xs ih =>
    intro h
    have step : ∀ m', c ∈ collapseGo m' xs →
        c = ' ' ∨ (c ∈ x :: xs ∧ isSpaceChar c = false) := by
      intro m' h'
      cases ih m' h' with
      | inl h'' => exact Or.inl h''
      | inr h'' => exact Or.inr ⟨List.mem_cons_of_mem _ h''.1, h''.2⟩
    cases m with
    | true =>
      cases hs : isSpaceChar x with
      | true =>
        rw [show collapseGo true (x :: xs) = collapseGo true xs by
          simp [collapseGo, hs]] at h
        exact step true h
      | false =>
        rw [show collapseGo true (x :: xs) = x :: collapseGo false xs by
          simp [collapseGo, hs]] at h
        cases List.mem_cons.mp h with
        | inl h' => exact Or.inr ⟨h' ▸ List.mem_cons_self _ _, h' ▸ hs⟩
        | inr h' => exact step false h'
    | false =>
      cases hs : isSpaceChar x with
      | true =>
        rw [show collapseGo false (x :: xs) = ' ' :: collapseGo true xs by
          simp [collapseGo, hs]] at h
        cases List.mem_cons.mp h with
        | inl h' => exact Or.inl h'
        | inr h' => exact step true h'
      | false =>
        rw [show collapseGo false (x :: xs) = x :: collapseGo false xs by
          simp [collapseGo, hs]] at h
        cases List.mem_cons.mp h with
        | inl h' => exact Or.inr ⟨h' ▸ List.mem_cons_self _ _, h' ▸ hs⟩
        | inr h' => exact step false h'

lemma head_collapseGo_true :
    ∀ s : List Char, ∀ y ∈ (collapseGo true s).head?, isSpaceChar y = false := by
  intro s
  induction s with
  | nil => intro y h; simp [collapseGo] at h
  | cons x xs ih =>
    intro y h
    cases hs : isSpaceChar x with
    | true =>
      rw [show collapseGo true (x :: xs) = collapseGo true xs by
        simp [collapseGo, hs]] at h
      exact ih y h
    | false =>
      rw [show collapseGo true (x :: xs) = x :: collapseGo false xs by
        simp [collapseGo, hs]] at h
      simp only [List.head?_cons, Option.mem_def, Option.some.injEq] at h
      exact h ▸ hs

lemma chain_collapseGo :
    ∀ (m : Bool) (s : List Char), noDoubleWs (collapseGo m s) := by
  intro m s
  induction s generalizing m with
  | nil => cases m <;> exact List.chain'_nil
  | cons x xs ih =>
    cases m with
    | true =>
      cases hs : isSpaceChar x with
      | true =>
        rw [show collapseGo true (x :: xs) = collapseGo true xs by
          simp [collapseGo, hs]]
        exact ih true
      | false =>
        rw [noDoubleWs, show collapseGo true (x :: xs) = x :: collapseGo false xs by
          simp [collapseGo, hs], List.chain'_cons']
        refine ⟨?_, ih false⟩
        intro y _
        simp [hs]
    | false =>
      cases hs : isSpaceChar x with
      | true =>
        rw [noDoubleWs, show collapseGo false (x :: xs) = ' ' :: collapseGo true xs by
          simp [collapseGo, hs], List.chain'_cons']
        refine ⟨?_, ih true⟩
        intro y hy
        have := head_collapseGo_true xs y hy
        simp [this]
      | false =>
        rw [noDoubleWs, show collapseGo false (x :: xs) = x :: collapseGo false xs by
          simp [collapseGo, hs], List.chain'_cons']
        refine ⟨?_, ih false⟩
        intro y _
        simp [hs]

lemma wsBlank_collapseGo (m : Bool) (s : List Char) :
    wsIsBlank (collapseGo m s) := by
  intro c hc hsp
  rcases mem_collapseGo m s hc with h | ⟨_, h⟩
  · exact h
  · rw [h] at hsp; cases hsp

lemma head_dropWhile {α : Type} (p : α → Bool) :
    ∀ l : List α, ∀ y ∈ (List.dropWhile p l).head?, p y = false := by
  intro l
  induction l with
  | nil => intro y h; simp at h
  | cons x xs ih =>
    intro y h
    cases hp : p x with
    | true =>
      rw [List.dropWhile_cons, if_pos hp] at h
      exact ih y h
    | false =>
      rw [List.dropWhile_cons, if_neg (by simp [hp])] at h
      simp only [List.head?_cons, Option.mem_def, Option.some.injEq] at h
      exact h ▸ hp

lemma mem_stripL {c : Char} {s : List Char} (h : c ∈ stripL s) : c ∈ s := by
  rw [stripL, List.mem_reverse] at h
  have h1 := (List.dropWhile_sublist _).mem h
  rw [List.mem_reverse] at h1
  exact (List.dropWhile_sublist _).mem h1

lemma spacePairSymm {a b : Char} (h : ¬(isSpaceChar a = true ∧ isSpaceChar b = true)) :
    ¬(isSpaceChar b = true ∧ isSpaceChar a = true) :=
  fun hc => h ⟨hc.2, hc.1⟩

lemma chain_stripL {s : List Char} (h : noDoubleWs s) : noDoubleWs (stripL s) := by
  have h1 : noDoubleWs (s.dropWhile isSpaceChar) :=
    h.suffix (List.dropWhile_suffix _)
  have h2 : noDoubleWs (s.dropWhile isSpaceChar).reverse :=
    List.chain'_reverse.mpr (h1.imp fun _ _ => spacePairSymm)
  have h3 : noDoubleWs ((s.dropWhile isSpaceChar).reverse.dropWhile isSpaceChar) :=
    h2.suffix (List.dropWhile_suffix _)
  exact List.chain'_reverse.mpr (h3.imp fun _ _ => spacePairSymm)

lemma last_stripL (s : List Char) :
    ∀ y ∈ (stripL s).getLast?, isSpaceChar y = false := by
  intro y hy
  rw [stripL, List.getLast?_reverse] at hy
  exact head_dropWhile _ _ y hy

lemma head_stripL (s : List Char) :
    ∀ y ∈ (stripL s).head?, isSpaceChar y = false := by
  intro y hy
  rw [stripL, List.head?_reverse] at hy
  set q := (s.dropWhile isSpaceChar).reverse.dropWhile isSpaceChar with hq
  have hqne : q ≠ [] := by
    intro hnil
    rw [hnil] at hy
    simp at hy
  obtain ⟨u, hu⟩ := List.dropWhile_suffix (l := (s.dropWhile isSpaceChar).reverse)
    isSpaceChar
  rw [← hq] at hu
  have : (s.dropWhile isSpaceChar).reverse.getLast? = q.getLast? := by
    rw [← hu]
    exact List.getLast?_append_of_ne_nil u hqne
  rw [← this, List.getLast?_reverse] at hy
  exact head_dropWhile _ _ y hy

/-- All structural invariants of the cleaning pipeline at once. -/
lemma cleanPipeline_invariants (s : List Char) :
    (∀ c ∈ cleanPipeline s, cleanChar c) ∧
    wsIsBlank (cleanPipeline s) ∧
    noDoubleWs (cleanPipeline s) ∧
    (∀ y ∈ (cleanPipeline s).head?, isSpaceChar y = false) ∧
    (∀ y ∈ (cleanPipeline s).getLast?, isSpaceChar y = false) := by
  refine ⟨?_, ?_, ?_, head_stripL _, last_stripL _⟩
  · intro c hc
    have hc6 := mem_stripL hc
    rcases mem_collapseGo _ _ hc6 with rfl | ⟨hc5, _⟩
    · exact ⟨by decide, by decide, by decide⟩
    · rw [removeDigits, List.mem_filter] at hc5
      obtain ⟨hc4, hdig⟩ := hc5
      rw [removePunct, List.mem_filter] at hc4
      obtain ⟨hc3, hpun⟩ := hc4
      have hc2 := (hashtagGo_sublist _ _).mem hc3
      have hc1 := (removeMentionsGo_sublist _ _).mem hc2
      have hc0 := (removeUrlsGo_sublist _ _).mem hc1
      obtain ⟨d, _, rfl⟩ := List.mem_map.mp hc0
      exact ⟨isUpperChar_toLowerChar d, by simpa using hdig, by simpa using hpun⟩
  · intro c hc hsp
    exact wsBlank_collapseGo _ _ c (mem_stripL hc) hsp
  · exact chain_stripL (chain_collapseGo _ _)

/-- **C10.** For every input, the cleaned text contains no ASCII
uppercase letter, digit or punctuation character; its only whitespace
is the plain blank; no two consecutive characters are whitespace; and
it has no leading or trailing whitespace (words are separated by single
spaces). -/
theorem clean_text_char_invariants (text : Option String) :
    (∀ c ∈ (clean_text text).data,
      isUpperChar c = false ∧ isDigitChar c = false ∧ isPunctChar c = false) ∧
    wsIsBlank (clean_text text).data ∧
    noDoubleWs (clean_text text).data ∧
    (∀ y ∈ (clean_text text).data.head?, isSpaceChar y = false) ∧
    (∀ y ∈ (clean_text text).data.getLast?, isSpaceChar y = false) := by
  cases text with
  | none =>
    refine ⟨?_, ?_, ?_, ?_, ?_⟩ <;> simp [clean_text, noDoubleWs, wsIsBlank]
  | some s =>
    by_cases h : s = ""
    · refine ⟨?_, ?_, ?_, ?_, ?_⟩ <;> simp [clean_text, h, noDoubleWs, wsIsBlank]
    · have : clean_text (some s) = ⟨cleanPipeline s.data⟩ := by
        simp [clean_text, h]
      rw [this]
      have hinv := cleanPipeline_invariants s.data
      exact ⟨fun c hc => ⟨(hinv.1 c hc).1, (hinv.1 c hc).2.1, (hinv.1 c hc).2.2⟩,
        hinv.2.1, hinv.2.2.1, hinv.2.2.2.1, hinv.2.2.2.2⟩

/-- **C10 witness.** A concrete cleaned character: `f` in the cleaned
form of `"Flood!! 99"`. -/
theorem clean_text_char_invariants_witness :
    isUpperChar 'f' = false ∧ isDigitChar 'f' = false ∧ isPunctChar 'f' = false :=
  (clean_text_char_invariants (some "Flood!! 99")).1 'f' (by decide)

/-! ### Conditional idempotence of `clean_text`

A second cleaning pass is the identity except for one stage: the URL
regex can match text that the punctuation/digit removal of the first
pass glued together (e.g. `h.ttpx` becomes `httpx`), so `clean_text` is
idempotent exactly on inputs whose cleaned form has no URL-pattern
match. -/

/-- No position of `s` starts a `http\S+|www\S+|https\S+` match. -/
def noUrlScan : List Char → Bool
  | [] => true
  | c :: cs => !startsUrl (c :: cs) && noUrlScan cs

lemma map_toLowerChar_id {s : List Char} (h : ∀ c ∈ s, isUpperChar c = false) :
    s.map toLowerChar = s := by
  induction s with
  | nil => rfl
  | cons x xs ih =>
    have hx : toLowerChar x = x := by
      rw [toLowerChar, if_neg]
      have := h x (List.mem_cons_self _ _)
      simpa [isUpperChar] using this
    rw [List.map_cons, hx, ih fun c hc => h c (List.mem_cons_of_mem _ hc)]

lemma removeUrlsGo_id {s : List Char} (h : noUrlScan s = true) :
    removeUrlsGo false s = s := by
  induction s with
  | nil => rfl
  | cons x xs ih =>
    rw [noUrlScan, Bool.and_eq_true, Bool.not_eq_true'] at h
    rw [show removeUrlsGo false (x :: xs) = x :: removeUrlsGo false xs by
      simp [removeUrlsGo, h.1], ih h.2]

lemma startsMention_eq_false {x : Char} {xs : List Char} (h : x ≠ '@') :
    startsMention (x :: xs) = false := by
  cases xs with
  | nil => rfl
  | cons y ys => simp [startsMention, h]

lemma removeMentionsGo_id {s : List Char} (h : ('@' : Char) ∉ s) :
    removeMentionsGo false s = s := by
  induction s with
  | nil => rfl
  | cons x xs ih =>
    have hx : x ≠ '@' := fun hc => h (hc ▸ List.mem_cons_self _ _)
    rw [show removeMentionsGo false (x :: xs) = x :: removeMentionsGo false xs by
      simp [removeMentionsGo, startsMention_eq_false hx],
      ih fun hc => h (List.mem_cons_of_mem _ hc)]

lemma startsTag_eq_false {x : Char} {xs : List Char} (h : x ≠ '#') :
    startsTag (x :: xs) = false := by
  cases xs with
  | nil => rfl
  | cons y ys => simp [startsTag, h]

lemma hashtagGo_id {s : List Char} (h : ('#' : Char) ∉ s) :
    hashtagGo false s = s := by
  induction s with
  | nil => rfl
  | cons x xs ih =>
    have hx : x ≠ '#' := fun hc => h (hc ▸ List.mem_cons_self _ _)
    rw [show hashtagGo false (x :: xs) = x :: hashtagGo false xs by
      simp [hashtagGo, startsTag_eq_false hx],
      ih fun hc => h (List.mem_cons_of_mem _ hc)]

lemma collapseGo_true_of_head {cs : List Char}
    (h : ∀ y ∈ cs.head?, isSpaceChar y = false) :
    collapseGo true cs = collapseGo false cs := by
  cases cs with
  | nil => rfl
  | cons y ys =>
    have hy := h y (by simp)
    simp [collapseGo, hy]

lemma collapseGo_id {s : List Char} (hb : wsIsBlank s) (hd : noDoubleWs s) :
    collapseGo false s = s := by
  induction s with
  | nil => rfl
  | cons x xs ih =>
    have hd' := (List.chain'_cons'.mp hd).2
    have hb' : wsIsBlank xs := fun c hc => hb c (List.mem_cons_of_mem _ hc)
    cases hs : isSpaceChar x with
    | true =>
      have hx : x = ' ' := hb x (List.mem_cons_self _ _) hs
      have hhead : ∀ y ∈ xs.head?, isSpaceChar y = false := by
        intro y hy
        have := (List.chain'_cons'.mp hd).1 y hy
        cases hsy : isSpaceChar y with
        | true => exact absurd ⟨hs, hsy⟩ this
        | false => rfl
      rw [show collapseGo false (x :: xs) = ' ' :: collapseGo true xs by
        simp [collapseGo, hs], collapseGo_true_of_head hhead, ih hb' hd', ← hx]
    | false =>
      rw [show collapseGo false (x :: xs) = x :: collapseGo false xs by
        simp [collapseGo, hs], ih hb' hd']

lemma dropWhile_id {α : Type} {p : α → Bool} {l : List α}
    (h : ∀ y ∈ l.head?, p y = false) : List.dropWhile p l = l := by
  cases l with
  | nil => rfl
  | cons x xs =>
    rw [List.dropWhile_cons, if_neg]
    simp [h x (by simp)]

lemma stripL_id {s : List Char} (hh : ∀ y ∈ s.head?, isSpaceChar y = false)
    (hl : ∀ y ∈ s.getLast?, isSpaceChar y = false) : stripL s = s := by
  rw [stripL, dropWhile_id hh, dropWhile_id (by simpa [List.head?_reverse] using hl),
    List.reverse_reverse]

/-- On text that is already fully cleaned and has no URL-pattern match,
every stage of the pipeline is the identity. -/
lemma cleanPipeline_id {s : List Char} (hchar : ∀ c ∈ s, cleanChar c)
    (hb : wsIsBlank s) (hd : noDoubleWs s)
    (hh : ∀ y ∈ s.head?, isSpaceChar y = false)
    (hl : ∀ y ∈ s.getLast?, isSpaceChar y = false)
    (hurl : noUrlScan s = true) : cleanPipeline s = s := by
  have hat : ('@' : Char) ∉ s := by
    intro hc
    have := (hchar _ hc).2.2
    rw [show isPunctChar '@' = true from by decide] at this
    cases this
  have hhash : ('#' : Char) ∉ s := by
    intro hc
    have := (hchar _ hc).2.2
    rw [show isPunctChar '#' = true from by decide] at this
    cases this
  have hupper : ∀ c ∈ s, isUpperChar c = false := fun c hc => (hchar c hc).1
  rw [cleanPipeline, map_toLowerChar_id hupper, removeUrls, removeUrlsGo_id hurl,
    removeMentions, removeMentionsGo_id hat, stripHashtags, hashtagGo_id hhash,
    removePunct, List.filter_eq_self.mpr fun c hc => by simp [(hchar c hc).2.2],
    removeDigits, List.filter_eq_self.mpr fun c hc => by simp [(hchar c hc).2.1],
    collapseGo_id hb hd, stripL_id hh hl]

/-- The invariants of `clean_text` output, shared between claims. -/
lemma clean_text_data_invariants (text : Option String) :
    (∀ c ∈ (clean_text text).data, cleanChar c) ∧
    wsIsBlank (clean_text text).data ∧
    noDoubleWs (clean_text text).data ∧
    (∀ y ∈ (clean_text text).data.head?, isSpaceChar y = false) ∧
    (∀ y ∈ (clean_text text).data.getLast?, isSpaceChar y = false) := by
  cases text with
  | none =>
    refine ⟨?_, ?_, ?_, ?_, ?_⟩ <;> simp [clean_text, noDoubleWs, wsIsBlank]
  | some s =>
    by_cases h : s = ""
    · refine ⟨?_, ?_, ?_, ?_, ?_⟩ <;> simp [clean_text, h, noDoubleWs, wsIsBlank]
    · have heq : clean_text (some s) = ⟨cleanPipeline s.data⟩ := by
        simp [clean_text, h]
      rw [heq]
      exact cleanPipeline_invariants s.data

/-! ### The lemmatizer (external to the repository)

Modelled from the spec: the repository lemmatizes with NLTK's
`WordNetLemmatizer`, a third-party dictionary-based component whose code
is not part of this repository.  Spec §4.1 describes it as a
dictionary-based lemmatizer mapping inflected forms to base forms
("flooding" → "flood"), idempotent by construction: the base forms are
fixed points of the dictionary. -/
def lemma_dict : List (String × String) :=
  [("flooding", "flood"), ("floods", "flood"), ("waves", "wave"),
   ("seas", "sea"), ("surges", "surge")]

/-- Modelled from the spec: dictionary lookup with fallback to the input
token. -/
def lemmatize (w : String) : String := (lemma_dict.lookup w).getD w

lemma lemmatize_idem (w : String) : lemmatize (lemmatize w) = lemmatize w := by
  by_cases h1 : w = "flooding"
  · subst h1; decide
  · by_cases h2 : w = "floods"
    · subst h2; decide
    · by_cases h3 : w = "waves"
      · subst h3; decide
      · by_cases h4 : w = "seas"
        · subst h4; decide
        · by_cases h5 : w = "surges"
          · subst h5; decide
          · have e1 : (w == "flooding") = false := beq_eq_false_iff_ne.mpr h1
            have e2 : (w == "floods") = false := beq_eq_false_iff_ne.mpr h2
            have e3 : (w == "waves") = false := beq_eq_false_iff_ne.mpr h3
            have e4 : (w == "seas") = false := beq_eq_false_iff_ne.mpr h4
            have e5 : (w == "surges") = false := beq_eq_false_iff_ne.mpr h5
            have hl : lemma_dict.lookup w = none := by
              simp [lemma_dict, List.lookup, e1, e2, e3, e4, e5]
            simp [lemmatize, hl]

/-- **C4 counterexample.** Cleaning is not idempotent: the input
`"h.ttpx y"` cleans to `"httpx y"` (the dot is removed after the URL
pass), and cleaning that again matches `http\S+` and yields `"y"`. -/
theorem clean_text_not_idempotent :
    clean_text (some "h.ttpx y") = "httpx y" ∧
    clean_text (some (clean_text (some "h.ttpx y"))) = "y" ∧
    clean_text (some (clean_text (some "h.ttpx y"))) ≠ clean_text (some "h.ttpx y") := by
  refine ⟨by decide, by decide, ?_⟩
  intro h
  rw [show clean_text (some (clean_text (some "h.ttpx y"))) = "y" from by decide,
    show clean_text (some "h.ttpx y") = "httpx y" from by decide] at h
  exact absurd h (by decide)

/-- **C4 amended.** Cleaning an already-cleaned text is a no-op
*provided* the cleaned text contains no URL-pattern match (`http` or
`www` followed by a non-space) — the one stage a second pass can
re-trigger; and the dictionary-based lemmatizer is idempotent:
lemmatizing an already-lemmatized token returns the same token. -/
theorem clean_text_conditional_idempotent :
    (∀ x : String, noUrlScan (clean_text (some x)).data = true →
      clean_text (some (clean_text (some x))) = clean_text (some x)) ∧
    (∀ w : String, lemmatize (lemmatize w) = lemmatize w) := by
  refine ⟨?_, lemmatize_idem⟩
  intro x hurl
  by_cases hr : clean_text (some x) = ""
  · rw [hr]
    rfl
  · have hinv := clean_text_data_invariants (some x)
    have heq : clean_text (some (clean_text (some x))) =
        ⟨cleanPipeline (clean_text (some x)).data⟩ := by
      rw [show ∀ t : String, clean_text (some t) =
          if t = "" then "" else ⟨cleanPipeline t.data⟩ from fun t => rfl,
        if_neg hr]
    rw [heq, cleanPipeline_id hinv.1 hinv.2.1 hinv.2.2.1 hinv.2.2.2.1
      hinv.2.2.2.2 hurl]

/-- **C4 witness.** A concrete no-URL input on which cleaning twice
equals cleaning once, and a concrete idempotent lemmatization. -/
theorem clean_text_conditional_idempotent_witness :
    noUrlScan (clean_text (some "Heavy #Flooding!!")).data = true ∧
    clean_text (some (clean_text (some "Heavy #Flooding!!"))) =
      clean_text (some "Heavy #Flooding!!") ∧
    lemmatize (lemmatize "flooding") = lemmatize "flooding" :=
  ⟨by decide,
   clean_text_conditional_idempotent.1 "Heavy #Flooding!!" (by decide),
   clean_text_conditional_idempotent.2 "flooding"⟩

/-! ### Correctness of `extract_keywords` -/

/-- The lemmatized tokens of length `> 2` — the tokens the counting loop
keeps. -/
def long_tokens (lemmas : List String) : List String :=
  lemmas.filter (fun t => t.length > 2)

/-- The invariant threaded through the counting loop of
`extract_keywords`: `acc` (the `word_freq` dict) records the occurrence
count of every token of the processed filtered stream `L`, has distinct
keys, misses no token of `L`, and lists its keys in first-occurrence
order of `L`. -/
def FreqInv (L : List String) (acc : List (String × Nat)) : Prop :=
  (∀ p ∈ acc, p.1 ∈ L ∧ p.2 = L.count p.1) ∧
  (acc.map Prod.fst).Nodup ∧
  (∀ w ∈ L, ∃ c, (w, c) ∈ acc) ∧
  acc.Pairwise (fun p q => L.indexOf p.1 < L.indexOf q.1)

lemma lookup_isSome_iff_keys {acc : List (String × Nat)} {w : String} :
    (acc.lookup w).isSome = true ↔ w ∈ acc.map Prod.fst := by
  induction acc with
  | nil => simp [List.lookup]
  | cons p ps ih =>
    obtain ⟨k, v⟩ := p
    by_cases hk : w = k
    · simp [List.lookup, hk]
    · have hb : (w == k) = false := beq_eq_false_iff_ne.mpr hk
      simp [List.lookup, hb, ih, hk]

lemma freqInv_bump {L : List String} {acc : List (String × Nat)} {w : String}
    (h : FreqInv L acc) : FreqInv (L ++ [w]) (bumpWord acc w) := by
  obtain ⟨h1, h2, h3, h4⟩ := h
  by_cases hlk : (acc.lookup w).isSome = true
  · have hwkeys : w ∈ acc.map Prod.fst := lookup_isSome_iff_keys.mp hlk
    rw [bumpWord, if_pos hlk]
    have hf1 : ∀ p : String × Nat,
        ((if p.1 = w then (p.1, p.2 + 1) else p) : String × Nat).1 = p.1 := by
      intro p; by_cases hp : p.1 = w <;> simp [hp]
    refine ⟨?_, ?_, ?_, ?_⟩
    · intro p' hp'
      obtain ⟨p, hp, rfl⟩ := List.mem_map.mp hp'
      obtain ⟨hmem, hcount⟩ := h1 p hp
      by_cases hpw : p.1 = w
      · rw [if_pos hpw]
        refine ⟨List.mem_append_left _ hmem, ?_⟩
        simp only
        rw [hcount, List.count_append, hpw]
        simp [List.count_singleton]
      · rw [if_neg hpw]
        refine ⟨List.mem_append_left _ hmem, ?_⟩
        rw [List.count_append, hcount]
        have hz : List.count p.1 [w] = 0 := by
          simp only [List.count_singleton]
          rw [if_neg]
          exact fun hc : (w == p.1) = true => hpw (beq_iff_eq.mp hc).symm
        omega
    · have hkeys : (acc.map fun p =>
          if p.1 = w then (p.1, p.2 + 1) else p).map Prod.fst = acc.map Prod.fst := by
        rw [List.map_map]
        exact List.map_congr_left fun p _ => hf1 p
      rw [hkeys]; exact h2
    · intro u hu
      rcases List.mem_append.mp hu with huL | huW
      · obtain ⟨c, hc⟩ := h3 u huL
        by_cases huw : u = w
        · exact ⟨c + 1, List.mem_map.mpr ⟨(u, c), hc, by simp [huw]⟩⟩
        · exact ⟨c, List.mem_map.mpr ⟨(u, c), hc, by simp [huw]⟩⟩
      · have huw : u = w := by simpa using huW
        obtain ⟨p, hp, hpfst⟩ := List.mem_map.mp hwkeys
        exact ⟨p.2 + 1, List.mem_map.mpr ⟨p, hp, by
          rw [if_pos hpfst]
          simp [hpfst, huw]⟩⟩
    · rw [List.pairwise_map]
      refine h4.imp_of_mem ?_
      intro p q hp hq hlt
      rw [hf1, hf1, List.indexOf_append_of_mem (h1 p hp).1,
        List.indexOf_append_of_mem (h1 q hq).1]
      exact hlt
  · rw [bumpWord, if_neg hlk]
    have hwkeys : w ∉ acc.map Prod.fst := fun hc =>
      hlk (lookup_isSome_iff_keys.mpr hc)
    have hwL : w ∉ L := by
      intro hwl
      obtain ⟨c, hc⟩ := h3 w hwl
      exact hwkeys (List.mem_map.mpr ⟨(w, c), hc, rfl⟩)
    refine ⟨?_, ?_, ?_, ?_⟩
    · intro p hp
      rcases List.mem_append.mp hp with hp' | hp'
      · obtain ⟨hmem, hcount⟩ := h1 p hp'
        have hne : p.1 ≠ w := fun hc => hwL (hc ▸ hmem)
        refine ⟨List.mem_append_left _ hmem, ?_⟩
        rw [List.count_append, hcount]
        have hz : List.count p.1 [w] = 0 := by
          simp only [List.count_singleton]
          rw [if_neg]
          exact fun hc : (w == p.1) = true => hne (beq_iff_eq.mp hc).symm
        omega
      · have hp'' : p = (w, 1) := by simpa using hp'
        subst hp''
        refine ⟨List.mem_append_right _ (by simp), ?_⟩
        simp only
        rw [List.count_append, List.count_eq_zero.mpr hwL]
        simp [List.count_singleton]
    · rw [List.map_append, List.nodup_append]
      refine ⟨h2, by simp, ?_⟩
      intro u hu hu'
      simp only [List.map_cons, List.map_nil, List.mem_singleton] at hu'
      exact hwkeys (hu' ▸ hu)
    · intro u hu
      rcases List.mem_append.mp hu with huL | huW
      · obtain ⟨c, hc⟩ := h3 u huL
        exact ⟨c, List.mem_append_left _ hc⟩
      · have huw : u = w := by simpa using huW
        exact ⟨1, List.mem_append_right _ (by simp [huw])⟩
    · rw [List.pairwise_append]
      refine ⟨h4.imp_of_mem ?_, by simp, ?_⟩
      · intro p q hp hq hlt
        rw [List.indexOf_append_of_mem (h1 p hp).1,
          List.indexOf_append_of_mem (h1 q hq).1]
        exact hlt
      · intro p hp q hq
        have hq' : q = (w, 1) := by simpa using hq
        subst hq'
        rw [List.indexOf_append_of_mem (h1 p hp).1,
          List.indexOf_append_of_not_mem hwL]
        have hub := List.indexOf_lt_length.mpr (h1 p hp).1
        simp only [List.indexOf_cons_self]
        omega

lemma freqInv_foldl (rest : List String) :
    ∀ (processed : List String) (acc : List (String × Nat)),
      FreqInv (long_tokens processed) acc →
      FreqInv (long_tokens (processed ++ rest))
        (rest.foldl (fun acc w => if w.length > 2 then bumpWord acc w else acc) acc) := by
  induction rest with
  | nil => intro processed acc h; simpa using h
  | cons w ws ih =>
    intro processed acc h
    have hstep : FreqInv (long_tokens (processed ++ [w]))
        (if w.length > 2 then bumpWord acc w else acc) := by
      by_cases hw : w.length > 2
      · rw [if_pos hw]
        have hlt : long_tokens (processed ++ [w]) = long_tokens processed ++ [w] := by
          simp [long_tokens, List.filter_append, hw]
        rw [hlt]
        exact freqInv_bump h
      · rw [if_neg hw]
        have hlt : long_tokens (processed ++ [w]) = long_tokens processed := by
          simp [long_tokens, List.filter_append, hw]
        rw [hlt]
        exact h
    have hrec := ih (processed ++ [w]) _ hstep
    simpa [List.append_assoc] using hrec

lemma word_freq_inv (lemmas : List String) :
    FreqInv (long_tokens lemmas) (word_freq lemmas) := by
  have hbase : FreqInv (long_tokens []) [] := by
    refine ⟨by simp, by simp, ?_, by simp⟩
    intro w hw
    simp [long_tokens] at hw
  have h := freqInv_foldl lemmas [] [] hbase
  simpa [word_freq] using h

lemma keywordLe_trans (a b c : Nat × (String × Nat)) :
    keywordLe a b = true → keywordLe b c = true → keywordLe a c = true := by
  simp only [keywordLe, decide_eq_true_iff]
  omega

lemma keywordLe_total (a b : Nat × (String × Nat)) :
    (keywordLe a b || keywordLe b a) = true := by
  simp only [keywordLe, Bool.or_eq_true, decide_eq_true_iff]
  omega

/-- The top-`top_n` slice of the stable descending sort of the
`word_freq` dict: bounded length, correct counts, distinct keywords,
ordered by descending count with ties in first-occurrence order, and
complete whenever `top_n` has room for every key. -/
lemma sorted_take_spec (L0 : List String) (top_n : Nat) :
    ((sorted_words (word_freq L0)).take top_n).length ≤ top_n ∧
    (∀ p ∈ (sorted_words (word_freq L0)).take top_n,
      p.1 ∈ long_tokens L0 ∧ p.2 = (long_tokens L0).count p.1) ∧
    (((sorted_words (word_freq L0)).take top_n).map Prod.fst).Nodup ∧
    ((sorted_words (word_freq L0)).take top_n).Pairwise (fun p q =>
      q.2 < p.2 ∨ (p.2 = q.2 ∧
        (long_tokens L0).indexOf p.1 < (long_tokens L0).indexOf q.1)) ∧
    ((word_freq L0).length ≤ top_n →
      ∀ w ∈ long_tokens L0,
        ∃ c, (w, c) ∈ (sorted_words (word_freq L0)).take top_n) := by
  obtain ⟨inv1, inv2, inv3, inv4⟩ := word_freq_inv L0
  set L := long_tokens L0 with hL
  set freqs := word_freq L0 with hfreqs
  set S := freqs.enum.mergeSort keywordLe with hS
  have hsw : sorted_words freqs = S.map Prod.snd := rfl
  have hSperm : S.Perm freqs.enum := List.mergeSort_perm _ _
  have hsorted : S.Pairwise (fun a b => keywordLe a b = true) :=
    List.sorted_mergeSort keywordLe_trans keywordLe_total _
  have henum_nodup : freqs.enum.Nodup := by
    apply List.Nodup.of_map Prod.fst
    rw [List.enum_map_fst]
    exact List.nodup_range _
  have hS_nodup : S.Nodup := hSperm.symm.nodup henum_nodup
  have hpair := hsorted.and hS_nodup
  have hgetpair := List.pairwise_iff_getElem.mp inv4
  have hRS : S.Pairwise (fun a b =>
      b.2.2 < a.2.2 ∨ (a.2.2 = b.2.2 ∧ L.indexOf a.2.1 < L.indexOf b.2.1)) := by
    refine hpair.imp_of_mem ?_
    intro a b ha hb hab
    obtain ⟨hle, hne⟩ := hab
    have hamem : freqs[a.1]? = some a.2 :=
      List.mem_enum_iff_getElem?.mp (hSperm.mem_iff.mp ha)
    have hbmem : freqs[b.1]? = some b.2 :=
      List.mem_enum_iff_getElem?.mp (hSperm.mem_iff.mp hb)
    obtain ⟨hia, hga⟩ := List.getElem?_eq_some.mp hamem
    obtain ⟨hib, hgb⟩ := List.getElem?_eq_some.mp hbmem
    simp only [keywordLe, decide_eq_true_iff] at hle
    rcases hle with hlt | ⟨heq, hij⟩
    · exact Or.inl hlt
    · refine Or.inr ⟨heq, ?_⟩
      have hij' : a.1 < b.1 := by
        rcases lt_or_eq_of_le hij with hcase | hcase
        · exact hcase
        · exfalso
          apply hne
          have h2nd : a.2 = b.2 := by
            rw [← hga, ← hgb]
            congr 1
          exact Prod.ext hcase h2nd
      have hgp := hgetpair a.1 b.1 hia hib hij'
      rw [hga, hgb] at hgp
      exact hgp
  have hSmap_perm : (S.map Prod.snd).Perm freqs := by
    have hp := hSperm.map Prod.snd
    rwa [List.enum_map_snd] at hp
  have hSmap_pair : (S.map Prod.snd).Pairwise (fun p q =>
      q.2 < p.2 ∨ (p.2 = q.2 ∧ L.indexOf p.1 < L.indexOf q.1)) :=
    List.pairwise_map.mpr hRS
  have htake_sub := List.take_sublist top_n (S.map Prod.snd)
  rw [hsw]
  refine ⟨?_, ?_, ?_, ?_, ?_⟩
  · simp [List.length_take]
  · intro p hp
    exact inv1 p (hSmap_perm.mem_iff.mp (htake_sub.mem hp))
  · exact ((htake_sub.map Prod.fst).nodup
      (((hSmap_perm.map Prod.fst).symm).nodup inv2))
  · exact List.Pairwise.sublist htake_sub hSmap_pair
  · intro hlen w hw
    obtain ⟨c, hc⟩ := inv3 w hw
    have hlen2 : (S.map Prod.snd).length ≤ top_n := by
      rw [List.length_map, hSperm.length_eq, List.enum_length]
      exact hlen
    rw [List.take_of_length_le hlen2]
    exact ⟨c, hSmap_perm.mem_iff.mpr hc⟩

/-- **C7.** Keyword extraction returns at most `top_n` pairs; each pair
is a lemmatized token of length `> 2` with its exact occurrence count
among those tokens; keywords are distinct; pairs are ordered by
descending count with ties in first-occurrence order; and no qualifying
token is omitted when `top_n` admits all distinct keywords. -/
theorem extract_keywords_spec (wordTok : String → List String) (stop : List String)
    (lem : Option (String → String)) (text : Option String) (top_n : Nat) :
    (extract_keywords wordTok stop lem text top_n).length ≤ top_n ∧
    (∀ p ∈ extract_keywords wordTok stop lem text top_n,
      p.1 ∈ long_tokens (preprocess_text wordTok stop lem text).lemmatized_tokens ∧
      p.2 = (long_tokens
        (preprocess_text wordTok stop lem text).lemmatized_tokens).count p.1) ∧
    ((extract_keywords wordTok stop lem text top_n).map Prod.fst).Nodup ∧
    (extract_keywords wordTok stop lem text top_n).Pairwise (fun p q =>
      q.2 < p.2 ∨ (p.2 = q.2 ∧
        (long_tokens
          (preprocess_text wordTok stop lem text).lemmatized_tokens).indexOf p.1 <
        (long_tokens
          (preprocess_text wordTok stop lem text).lemmatized_tokens).indexOf q.1)) ∧
    ((word_freq (preprocess_text wordTok stop lem text).lemmatized_tokens).length ≤
        top_n →
      ∀ w ∈ long_tokens (preprocess_text wordTok stop lem text).lemmatized_tokens,
        ∃ c, (w, c) ∈ extract_keywords wordTok stop lem text top_n) := by
  cases text with
  | none =>
    have hempty : (preprocess_text wordTok stop lem none).lemmatized_tokens = [] := rfl
    have hex : extract_keywords wordTok stop lem none top_n = [] := rfl
    rw [hex, hempty]
    refine ⟨by simp, by simp, by simp, by simp, ?_⟩
    intro _ w hw
    simp [long_tokens] at hw
  | some t =>
    by_cases ht : t = ""
    · subst ht
      have hempty :
          (preprocess_text wordTok stop lem (some "")).lemmatized_tokens = [] := rfl
      have hex : extract_keywords wordTok stop lem (some "") top_n = [] := by
        simp [extract_keywords]
      rw [hex, hempty]
      refine ⟨by simp, by simp, by simp, by simp, ?_⟩
      intro _ w hw
      simp [long_tokens] at hw
    · have hex : extract_keywords wordTok stop lem (some t) top_n =
          (sorted_words (word_freq
            (preprocess_text wordTok stop lem (some t)).lemmatized_tokens)).take
              top_n := by
        simp [extract_keywords, ht]
      rw [hex]
      exact sorted_take_spec _ top_n

/-- **C7 witness.** A concrete run: with lemmatized tokens
`["storm", "storm", "wave", "z"]` the dict has two keys, so with
`top_n = 5` both `storm` and `wave` must appear in the result. -/
theorem extract_keywords_spec_witness :
    (word_freq (preprocess_text (fun _ => ["storm", "storm", "wave", "z"]) [] none
      (some "storm alert")).lemmatized_tokens).length ≤ 5 ∧
    "wave" ∈ long_tokens (preprocess_text
      (fun _ => ["storm", "storm", "wave", "z"]) [] none
        (some "storm alert")).lemmatized_tokens ∧
    (∃ c, ("storm", c) ∈ extract_keywords (fun _ => ["storm", "storm", "wave", "z"])
      [] none (some "storm alert") 5) ∧
    (∃ c, ("wave", c) ∈ extract_keywords (fun _ => ["storm", "storm", "wave", "z"])
      [] none (some "storm alert") 5) := by
  have h := extract_keywords_spec (fun _ => ["storm", "storm", "wave", "z"])
    [] none (some "storm alert") 5
  exact ⟨by decide, by decide,
    h.2.2.2.2 (by decide) "storm" (by decide),
    h.2.2.2.2 (by decide) "wave" (by decide)⟩

end OceanHazard
